import Mathlib

/-!
# Verification of the Wordora Markov chatbot core (src/main.rs)

A shallow embedding of the program's data model and operations:

* `Word`, `Word.new`, `Word.add_transition` embed the Rust `Word` struct.
* `Table` embeds `HashMap<String, Word>` as an association list (the claims
  are key/lookup properties, insensitive to bucket order).
* `learnTokens` embeds the indexed loop of `MarkovChain::learn`
  (main.rs lines 52-67) over the tokenized sequence `separated`.
* `chunk_string`, `separate_tokens`, `split_whitespace` embed the tokenizer;
  `tokenizeTraining` and `MarkovChain.learn` embed the full `learn` pipeline.
* `weightsOf`, `weightedPick`, `generateAux`, `generate` embed
  `MarkovChain::generate`; randomness is an explicit oracle stream of
  naturals, fuel makes the (potentially divergent) restart recursion total:
  `none` models a run that has not finished within the given fuel.
-/

/-- Embeds the Rust struct `Word { word: String, transitions: Vec<String> }`. -/
structure Word where
  word : String
  transitions : List String
deriving DecidableEq, Repr

/-- Embeds `Word::new`. -/
def Word.new (w : String) : Word := ⟨w, []⟩

/-- Embeds `Word::add_transition` (Vec::push appends at the end). -/
def Word.add_transition (wd : Word) (t : String) : Word :=
  ⟨wd.word, wd.transitions ++ [t]⟩

/-- Embeds `HashMap<String, Word>` as an association list. -/
abbrev Table := List (String × Word)

/-- Embeds `HashMap::get`. -/
def Table.find? : Table → String → Option Word
  | [], _ => none
  | (k', w) :: rest, k => if k' = k then some w else Table.find? rest k

/-- Embeds `self.words.entry(k).or_insert_with(|| Word::new(k))`:
insert a fresh record when the key is absent. -/
def Table.entryOrInsert (tbl : Table) (k : String) : Table :=
  match tbl.find? k with
  | some _ => tbl
  | none => tbl ++ [(k, Word.new k)]

/-- Embeds `self.words.get_mut(&k).unwrap().add_transition(t)`. -/
def Table.addTransition (tbl : Table) (k : String) (t : String) : Table :=
  tbl.map (fun p => if p.1 = k then (p.1, p.2.add_transition t) else p)

/-- Embeds the loop `for i in 0..separated.len()` of `MarkovChain::learn`
(main.rs lines 52-67): at index `i`, ensure `separated[i]` has a record,
then, when `separated.get(i+1)` exists, append it to the successor list. -/
def learnTokens : Table → List String → Table
  | tbl, [] => tbl
  | tbl, [x] => tbl.entryOrInsert x
  | tbl, x :: y :: rest =>
    learnTokens ((tbl.entryOrInsert x).addTransition x y) (y :: rest)

/-- The successors of `w` read off the token sequence itself: the second
components of the adjacent pairs whose first component is `w`, in order. -/
def successorsSpec (toks : List String) (w : String) : List String :=
  (((toks.zip toks.tail).filter (fun p => p.1 = w)).map Prod.snd)

/-- Helper for `chunk_string`: consume the character list, emitting the
accumulated (reversed) chunk whenever its capacity `k` runs out.  Structural
counterpart of `input.chars().chunks(chunk_size)` in main.rs lines 105-112. -/
def chunkAux (n : Nat) : List Char → List Char → Nat → List (List Char)
  | [], acc, _ => [acc.reverse]
  | c :: cs, acc, 0 => acc.reverse :: chunkAux n cs [c] (n - 1)
  | c :: cs, acc, Nat.succ k => chunkAux n cs (c :: acc) k

/-- Chunk a character list into consecutive pieces of `n` characters (the
last piece possibly shorter), as Rust's `slice::chunks(n)` for `n ≥ 1`
(Rust panics on `n = 0`; the claims only concern `n ≥ 1`). -/
def chunkList (n : Nat) : List Char → List (List Char)
  | [] => []
  | c :: cs => chunkAux n cs [c] (n - 1)

/-- Embeds `chunk_string` (main.rs lines 105-112): split a string into
pieces of `chunk_size` characters, on character (not byte) boundaries. -/
def chunk_string (input : String) (chunk_size : Nat) : List String :=
  (chunkList chunk_size input.data).map fun c => ⟨c⟩

/-- The regex class `[一-龯]` (ideographs, U+4E00–U+9FAF). -/
def isKanji (c : Char) : Bool := 0x4E00 ≤ c.toNat && c.toNat ≤ 0x9FAF

/-- The regex class `[ぁ-ん]` (hiragana, U+3041–U+3093). -/
def isHiragana (c : Char) : Bool := 0x3041 ≤ c.toNat && c.toNat ≤ 0x3093

/-- The regex class `[ァ-ヴー]` (katakana U+30A1–U+30F4 plus the
long-sound mark U+30FC). -/
def isKatakana (c : Char) : Bool :=
  (0x30A1 ≤ c.toNat && c.toNat ≤ 0x30F4) || c.toNat = 0x30FC

/-- The regex class `[。、a-zA-Z]` (two punctuation marks and ASCII
letters). -/
def isLatinOrMark (c : Char) : Bool :=
  c = '。' || c = '、' || ('a' ≤ c && c ≤ 'z') || ('A' ≤ c && c ≤ 'Z')

/-- The four character classes of the regex in `separate_tokens`
(main.rs line 116); the classes are pairwise disjoint, and a character in
none of them (whitespace, emoji, ...) is dropped by the tokenizer. -/
def charClass (c : Char) : Option (Fin 4) :=
  if isKanji c then some 0
  else if isHiragana c then some 1
  else if isKatakana c then some 2
  else if isLatinOrMark c then some 3
  else none

/-- Scanner behind `separate_tokens`: walk the characters keeping the class
and the (reversed) accumulated run; emit the run when the class changes or
an unclassified character arrives.  This is exactly what
`re.find_iter(text)` yields for the alternation of the four greedy classes:
maximal same-class runs, left to right. -/
def runsGo : List Char → Option (Fin 4 × List Char) → List String
  | [], none => []
  | [], some (_, acc) => [⟨acc.reverse⟩]
  | c :: cs, none =>
    match charClass c with
    | none => runsGo cs none
    | some k => runsGo cs (some (k, [c]))
  | c :: cs, some (k, acc) =>
    match charClass c with
    | none => ⟨acc.reverse⟩ :: runsGo cs none
    | some k' =>
      if k' = k then runsGo cs (some (k, c :: acc))
      else ⟨acc.reverse⟩ :: runsGo cs (some (k', [c]))

/-- Embeds `separate_tokens` (main.rs lines 115-120).  The source's final
`join(" ")`/`split_whitespace` round trip is the identity on the match
list: every match is nonempty and none of the four classes contains a
whitespace character, so re-splitting on whitespace returns the matches
unchanged. -/
def separate_tokens (text : String) : List String := runsGo text.data none

/-- Scanner behind `split_whitespace`: split on whitespace characters,
dropping empty fragments, as Rust's `str::split_whitespace`. -/
def splitWSGo : List Char → List Char → List String
  | [], acc => if acc.isEmpty then [] else [⟨acc.reverse⟩]
  | c :: cs, acc =>
    if c.isWhitespace then
      if acc.isEmpty then splitWSGo cs []
      else ⟨acc.reverse⟩ :: splitWSGo cs []
    else splitWSGo cs (c :: acc)

/-- Embeds `text.split_whitespace()` (main.rs line 37). -/
def split_whitespace (s : String) : List String := splitWSGo s.data []

/-- The tokenization pipeline of `MarkovChain::learn` (main.rs lines
37-49): whitespace words, then script runs, then width-5 chunks. -/
def tokenizeTraining (text : String) : List String :=
  (((split_whitespace text).map separate_tokens).flatten.map
    (fun w => chunk_string w 5)).flatten

/-- Embeds `MarkovChain::learn` (main.rs lines 36-68). -/
def MarkovChain.learn (tbl : Table) (text : String) : Table :=
  learnTokens tbl (tokenizeTraining text)

/-- The query-time tokenization of `main` (main.rs lines 295-296): Stage-1
runs are concatenated (`tokens.join("")`) and the concatenation is chunked
with width 3. -/
def queryTokens (input : String) : List String :=
  chunk_string (String.join (separate_tokens input)) 3

/-- The seed passed to `generate` in `main` (main.rs lines 297-300):
the first query token, defaulting to the empty string. -/
def startWord (input : String) : String := (queryTokens input).headD ""

/-- The weight vector of `generate` (main.rs lines 80-84): each entry of
the successor list is weighted by the number of occurrences of its value
in that list. -/
def weightsOf (ts : List String) : List Nat := ts.map fun w => ts.count w

/-- Embeds `WeightedIndex::sample`: given a uniform draw `r` below the
total weight, return the index whose cumulative weight range contains
`r`. -/
def weightedPick : List Nat → Nat → Nat
  | [], _ => 0
  | w :: rest, r => if r < w then 0 else 1 + weightedPick rest (r - w)

/-- Embeds `WeightedIndex::new` (main.rs line 87): constructing the sampler
fails (the `unwrap` would panic) exactly when the weight vector is empty or
sums to zero. -/
def weightedIndexNew (ws : List Nat) : Option (List Nat) :=
  if ws.isEmpty || ws.sum = 0 then none else some ws

/-- Number of draws `r` below the total weight for which the weighted
sampler over `weightsOf ts` selects an occurrence carrying the value `v`:
the selection probability of `v` is `selectionCount ts v` divided by the
total weight. -/
def selectionCount (ts : List String) (v : String) : Nat :=
  ((List.range (weightsOf ts).sum).filter
    (fun r => ts.getD (weightedPick (weightsOf ts) r) "" = v)).length

/-- A dead end of the walk in `generate`: the current token is unknown to
the table, or known with an empty successor list (main.rs lines 77-78). -/
def deadEnd (tbl : Table) (w : String) : Bool :=
  match tbl.find? w with
  | none => true
  | some wd => wd.transitions.isEmpty

/-- Embeds the loop of `MarkovChain::generate` (main.rs lines 76-101).
State: the oracle stream `rng` (each entry one random draw), the
accumulated `result`, the `current` word, and `n` loop iterations left.
`fuel` decreases on every call and bounds the total work; `none` models a
run that has not finished within `fuel` (the restart recursion of the
source can diverge).  On a dead end the whole result is replaced by a
fresh recursive `generate("。", 20)` and `current` is left unchanged. -/
def generateAux (tbl : Table) :
    Nat → List Nat → String → String → Nat → Option (String × List Nat)
  | 0, _, _, _, _ => none
  | Nat.succ fuel, rng, result, current, n =>
    match n with
    | 0 => some (result, rng)
    | Nat.succ m =>
      match Table.find? tbl current with
      | some word =>
        match word.transitions with
        | [] =>
          match generateAux tbl fuel rng "。" "。" 20 with
          | none => none
          | some (r, rng') => generateAux tbl fuel rng' r current m
        | _ :: _ =>
          let ws := weightsOf word.transitions
          let r := rng.headD 0 % ws.sum
          let idx := weightedPick ws r
          let next := word.transitions.getD idx ""
          generateAux tbl fuel rng.tail (result ++ " " ++ next) next m
      | none =>
        match generateAux tbl fuel rng "。" "。" 20 with
        | none => none
        | some (r, rng') => generateAux tbl fuel rng' r current m

/-- Embeds `MarkovChain::generate` (main.rs lines 71-102): start from the
seed and run `length` iterations. -/
def generate (tbl : Table) (fuel : Nat) (rng : List Nat)
    (start_word : String) (length : Nat) : Option String :=
  (generateAux tbl fuel rng start_word start_word length).map Prod.fst

/-- The first space-separated token of a generated string. -/
def firstToken (s : String) : String :=
  ⟨s.data.takeWhile (fun c => !(c = ' '))⟩

theorem find?_append (tbl l : Table) (k : String) :
    Table.find? (tbl ++ l) k =
      match tbl.find? k with
      | some w => some w
      | none => Table.find? l k := by
  induction tbl with
  | nil => rfl
  | cons p rest ih =>
    obtain ⟨k', w⟩ := p
    by_cases hk : k' = k
    · simp [Table.find?, hk]
    · simp [Table.find?, hk, ih]

theorem find?_entryOrInsert (tbl : Table) (x k : String) :
    Table.find? (tbl.entryOrInsert x) k =
      match tbl.find? k with
      | some wd => some wd
      | none => if x = k then some (Word.new x) else none := by
  unfold Table.entryOrInsert
  cases hx : tbl.find? x with
  | some w =>
    cases hk : tbl.find? k with
    | some wd => simp [hk]
    | none =>
      simp only [hk]
      by_cases hxk : x = k
      · subst hxk; simp [hx] at hk
      · simp [hxk]
  | none =>
    rw [find?_append]
    cases hk : tbl.find? k with
    | some wd => rfl
    | none =>
      by_cases hxk : x = k
      · simp [Table.find?, hxk]
      · simp [Table.find?, hxk]

theorem find?_addTransition (tbl : Table) (x t k : String) :
    Table.find? (tbl.addTransition x t) k =
      if x = k then (tbl.find? k).map (fun wd => wd.add_transition t)
      else tbl.find? k := by
  induction tbl with
  | nil => simp [Table.find?, Table.addTransition]
  | cons p rest ih =>
    obtain ⟨k', w⟩ := p
    simp only [Table.addTransition, List.map_cons] at ih ⊢
    by_cases hx : k' = x
    · subst hx
      simp only [if_pos rfl]
      by_cases hk : k' = k
      · subst hk; simp [Table.find?]
      · simp only [Table.find?, hk, if_false, ih]
    · simp only [if_neg hx]
      by_cases hk : k' = k
      · subst hk
        by_cases hxk : x = k'
        · exact absurd hxk.symm hx
        · simp [Table.find?, hxk]
      · simp [Table.find?, hk, ih]

/-- Master lemma: the effect of the learn loop on a single lookup.  A key
absent from the initial table ends with exactly the successors read off the
token sequence; a key already present has them appended. -/
theorem find?_learnTokens (toks : List String) (tbl : Table) (w : String) :
    Table.find? (learnTokens tbl toks) w =
      match tbl.find? w with
      | some wd => some ⟨wd.word, wd.transitions ++ successorsSpec toks w⟩
      | none =>
          if w ∈ toks then some ⟨w, successorsSpec toks w⟩ else none := by
  induction toks generalizing tbl with
  | nil =>
    cases h : tbl.find? w with
    | some wd => simp [learnTokens, h, successorsSpec]
    | none => simp [learnTokens, h, successorsSpec]
  | cons x rest ih =>
    cases rest with
    | nil =>
      simp only [learnTokens, find?_entryOrInsert]
      cases h : tbl.find? w with
      | some wd => simp [successorsSpec]
      | none =>
        by_cases hxw : x = w
        · subst hxw; simp [successorsSpec, Word.new]
        · simp [hxw, Ne.symm hxw, successorsSpec]
    | cons y rest' =>
      simp only [learnTokens, ih, find?_addTransition, find?_entryOrInsert]
      by_cases hxw : x = w
      · subst hxw
        simp only [if_pos rfl]
        cases h : tbl.find? x with
        | some wd =>
          simp [h, successorsSpec, Word.add_transition, List.filter_cons,
            List.append_assoc]
        | none =>
          simp [h, successorsSpec, Word.add_transition, Word.new,
            List.filter_cons]
      · simp only [if_neg hxw]
        cases h : tbl.find? w with
        | some wd =>
          simp [h, successorsSpec, List.filter_cons, hxw]
        | none =>
          have hwx : ¬ w = x := fun hc => hxw hc.symm
          simp [h, successorsSpec, List.filter_cons, hxw, hwx]

theorem find?_isSome_iff_mem_keys (tbl : Table) (k : String) :
    (Table.find? tbl k).isSome ↔ k ∈ tbl.map Prod.fst := by
  induction tbl with
  | nil => simp [Table.find?]
  | cons p rest ih =>
    obtain ⟨k', w⟩ := p
    by_cases hk : k' = k
    · simp [Table.find?, hk]
    · have hk' : ¬ k = k' := fun hc => hk hc.symm
      simp [Table.find?, hk, hk', ih]

/-- C4: after the learn loop runs on a token sequence (starting from the
empty table), a string has an entry in the table exactly when it occurs in
the sequence — the final token included — and the key set of the table is
exactly the set of tokens of the sequence. -/
theorem learn_key_set (toks : List String) (k : String) :
    ((Table.find? (learnTokens [] toks) k).isSome ↔ k ∈ toks) ∧
    (k ∈ (learnTokens ([] : Table) toks).map Prod.fst ↔ k ∈ toks) := by
  have h := find?_learnTokens toks [] k
  simp only [Table.find?] at h
  constructor
  · rw [h]
    by_cases hk : k ∈ toks <;> simp [hk]
  · rw [← find?_isSome_iff_mem_keys, h]
    by_cases hk : k ∈ toks <;> simp [hk]

/-- C5: for every token sequence, each token's record holds exactly the
sequence's adjacent-pair successors of that token, in order with duplicates
(the final token's record gets no successor appended); in particular after
learning ["a","b","a","c"] the record of "a" is ⟨"a", ["b","c"]⟩ and the
record of "c" is ⟨"c", []⟩. -/
theorem learn_adjacent_pairs :
    (∀ (toks : List String) (w : String), w ∈ toks →
      Table.find? (learnTokens [] toks) w = some ⟨w, successorsSpec toks w⟩) ∧
    (Table.find? (learnTokens [] ["a", "b", "a", "c"]) "a"
        = some ⟨"a", ["b", "c"]⟩ ∧
     Table.find? (learnTokens [] ["a", "b", "a", "c"]) "c"
        = some ⟨"c", []⟩) := by
  refine ⟨fun toks w hw => ?_, by decide, by decide⟩
  have h := find?_learnTokens toks [] w
  simp only [Table.find?] at h
  rw [h, if_pos hw]

/-- Witness for C5's general clause at the sequence ["a","b"] and token "a". -/
theorem learn_adjacent_pairs_witness :
    Table.find? (learnTokens [] ["a", "b"]) "a"
      = some ⟨"a", successorsSpec ["a", "b"] "a"⟩ :=
  learn_adjacent_pairs.1 ["a", "b"] "a" (by decide)

/-- C9: learning the same token sequence twice (from the empty table) keeps
the key set of a single learn and doubles the multiplicity of every
successor in every record. -/
theorem learn_twice_doubles (toks : List String) :
    (∀ w, (Table.find? (learnTokens (learnTokens [] toks) toks) w).isSome
        = (Table.find? (learnTokens [] toks) w).isSome) ∧
    (∀ w wd, Table.find? (learnTokens [] toks) w = some wd →
      ∃ wd', Table.find? (learnTokens (learnTokens [] toks) toks) w = some wd'
        ∧ ∀ s, wd'.transitions.count s = 2 * wd.transitions.count s) := by
  have h1 : ∀ w, Table.find? (learnTokens [] toks) w
      = if w ∈ toks then some ⟨w, successorsSpec toks w⟩ else none := by
    intro w
    have h := find?_learnTokens toks [] w
    simpa only [Table.find?] using h
  have h2 : ∀ w, Table.find? (learnTokens (learnTokens [] toks) toks) w
      = if w ∈ toks
        then some ⟨w, successorsSpec toks w ++ successorsSpec toks w⟩
        else none := by
    intro w
    have h := find?_learnTokens toks (learnTokens [] toks) w
    rw [h1 w] at h
    by_cases hw : w ∈ toks
    · simpa [hw] using h
    · simpa [hw] using h
  constructor
  · intro w
    rw [h1 w, h2 w]
    by_cases hw : w ∈ toks <;> simp [hw]
  · intro w wd hwd
    rw [h1 w] at hwd
    by_cases hw : w ∈ toks
    · rw [if_pos hw] at hwd
      refine ⟨⟨w, successorsSpec toks w ++ successorsSpec toks w⟩,
        by rw [h2 w, if_pos hw], fun s => ?_⟩
      have hwd' : wd = ⟨w, successorsSpec toks w⟩ := (Option.some_inj.mp hwd).symm
      subst hwd'
      simp [List.count_append, Nat.two_mul]
    · rw [if_neg hw] at hwd
      exact absurd hwd (by simp)

/-- Witness for C9 at the sequence ["a","b"] and token "a". -/
theorem learn_twice_doubles_witness :
    ∃ wd', Table.find? (learnTokens (learnTokens [] ["a", "b"]) ["a", "b"]) "a"
        = some wd'
      ∧ ∀ s, wd'.transitions.count s
          = 2 * (Word.mk "a" ["b"]).transitions.count s :=
  (learn_twice_doubles ["a", "b"]).2 "a" ⟨"a", ["b"]⟩ (by decide)


theorem chunkAux_join (n : Nat) (cs acc : List Char) (k : Nat) :
    (chunkAux n cs acc k).flatten = acc.reverse ++ cs := by
  induction cs generalizing acc k with
  | nil => simp [chunkAux]
  | cons c cs ih =>
    cases k with
    | zero => simp [chunkAux, ih]
    | succ k => simp [chunkAux, ih]

theorem chunkList_join (n : Nat) (l : List Char) :
    (chunkList n l).flatten = l := by
  cases l with
  | nil => rfl
  | cons c cs => simp [chunkList, chunkAux_join]

theorem chunkAux_length_le (n : Nat) (cs acc : List Char) (k : Nat)
    (hacc : acc ≠ []) (hcap : acc.length + k = n) :
    ∀ ch ∈ chunkAux n cs acc k, ch ≠ [] ∧ ch.length ≤ n := by
  induction cs generalizing acc k with
  | nil =>
    intro ch hch
    simp only [chunkAux, List.mem_singleton] at hch
    subst hch
    constructor
    · simpa using hacc
    · simp [← hcap]
  | cons c cs ih =>
    intro ch hch
    cases k with
    | zero =>
      simp only [chunkAux, List.mem_cons] at hch
      rcases hch with rfl | hch
      · constructor
        · simpa using hacc
        · simp [← hcap]
      · have h1 : 0 < acc.length := List.length_pos.mpr hacc
        refine ih [c] (n - 1) (by simp) ?_ ch hch
        simp only [List.length_singleton]
        omega
    | succ k =>
      simp only [chunkAux] at hch
      refine ih (c :: acc) k (by simp) ?_ ch hch
      simp at hcap ⊢
      omega

theorem chunkAux_short (n : Nat) (cs acc : List Char) (k : Nat)
    (h : cs.length ≤ k) : chunkAux n cs acc k = [acc.reverse ++ cs] := by
  induction cs generalizing acc k with
  | nil => simp [chunkAux]
  | cons c cs ih =>
    cases k with
    | zero => simp at h
    | succ k =>
      have := ih (c :: acc) k (by simpa using h)
      simp [chunkAux, this]

theorem chunkList_single (n : Nat) (l : List Char) (h0 : l ≠ [])
    (hn : l.length ≤ n) : chunkList n l = [l] := by
  cases l with
  | nil => exact absurd rfl h0
  | cons c cs =>
    have : cs.length ≤ n - 1 := by simp at hn; omega
    simp [chunkList, chunkAux_short n cs [c] (n - 1) this]

theorem string_join_data (L : List String) :
    (String.join L).data = (L.map String.data).flatten := by
  have haux : ∀ (a : String) (M : List String),
      (M.foldl (fun r s => r ++ s) a).data = a.data ++ (M.map String.data).flatten := by
    intro a M
    induction M generalizing a with
    | nil => simp
    | cons s M ih => simp [ih, String.data_append]
  have h0 := haux "" L
  have hnil : ("" : String).data = [] := rfl
  rw [hnil, List.nil_append] at h0
  exact h0

theorem map_mk_map_data (L : List (List Char)) :
    (L.map (fun c => (⟨c⟩ : String))).map String.data = L := by
  induction L with
  | nil => rfl
  | cons a L ih => rw [List.map_cons, List.map_cons, ih]

theorem join_chunk_string (s : String) (n : Nat) :
    String.join (chunk_string s n) = s := by
  apply String.ext
  rw [string_join_data]
  unfold chunk_string
  rw [map_mk_map_data, chunkList_join]

/-- C7 (amended): for every string and every width `n ≥ 1`, chunking yields
nonempty pieces of at most `n` characters whose in-order concatenation is
the original string; a **nonempty** string of at most `n` characters (so in
particular one of exactly `n` characters) yields the single piece equal to
itself, while the empty string yields no pieces at all. -/
theorem chunk_string_spec (s : String) (n : Nat) (hn : 1 ≤ n) :
    (∀ c ∈ chunk_string s n, c ≠ "" ∧ c.length ≤ n) ∧
    String.join (chunk_string s n) = s ∧
    (s ≠ "" → s.length ≤ n → chunk_string s n = [s]) := by
  refine ⟨?_, join_chunk_string s n, ?_⟩
  · intro c hc
    simp only [chunk_string, List.mem_map] at hc
    obtain ⟨ch, hch, rfl⟩ := hc
    cases s with
    | mk data =>
      cases data with
      | nil => simp [chunkList] at hch
      | cons a as =>
        have := chunkAux_length_le n as [a] (n - 1) (by simp)
          (by simp only [List.length_singleton]; omega) ch hch
        refine ⟨?_, ?_⟩
        · intro hc
          exact this.1 (by simpa [String.ext_iff] using hc)
        · exact this.2
  · intro hs hlen
    have h0 : s.data ≠ [] := by
      intro hc
      exact hs (String.ext hc)
    have hone : chunkList n s.data = [s.data] :=
      chunkList_single n s.data h0 hlen
    unfold chunk_string
    rw [hone]
    rfl

/-- Witness for C7's amended statement at `s = "ab"`, `n = 3`. -/
theorem chunk_string_spec_witness :
    String.join (chunk_string "ab" 3) = "ab" ∧ chunk_string "ab" 3 = ["ab"] :=
  ⟨(chunk_string_spec "ab" 3 (by decide)).2.1,
   (chunk_string_spec "ab" 3 (by decide)).2.2 (by decide) (by decide)⟩

/-- C7 counterexample: the claim "a string of fewer than N characters yields
a single piece equal to itself" fails for the empty string, which yields no
pieces at all. -/
theorem chunk_string_empty_counterexample :
    ("" : String).length < 3 ∧ chunk_string "" 3 = [] ∧
    chunk_string "" 3 ≠ [""] := by
  refine ⟨by decide, rfl, by decide⟩

theorem string_join_cons (a : String) (L : List String) :
    String.join (a :: L) = a ++ String.join L := by
  apply String.ext
  rw [String.data_append, string_join_data, string_join_data, List.map_cons,
    List.flatten_cons]

/-- C3 counterexample: on the input "ab cd" the Stage-1 tokens are "ab" and
"cd", yet the first query chunk (the seed) is "abc", which is longer than
every Stage-1 token and therefore not a contiguous piece of any single one
of them — width-3 chunking is applied to the concatenation of the Stage-1
tokens, not to each token separately. -/
theorem query_chunk_crosses_boundary :
    separate_tokens "ab cd" = ["ab", "cd"] ∧
    queryTokens "ab cd" = ["abc", "d"] ∧
    startWord "ab cd" = "abc" ∧
    (∀ t ∈ separate_tokens "ab cd", t.length < (startWord "ab cd").length) := by
  refine ⟨by decide, by decide, by decide, by decide⟩

/-- C3 (amended): query-time tokenization chunks the **concatenation** of
all Stage-1 tokens with width 3 (so a chunk may span a Stage-1 boundary);
the seed passed to `generate` is the first chunk, a prefix of at most 3
characters of that concatenation. -/
theorem query_seed_spec (input : String) :
    queryTokens input = chunk_string (String.join (separate_tokens input)) 3 ∧
    (startWord input).length ≤ 3 ∧
    ∃ rest, String.join (separate_tokens input) = startWord input ++ rest := by
  refine ⟨rfl, ?_, ?_⟩
  · cases hq : queryTokens input with
    | nil => simp [startWord, hq]
    | cons c cs =>
      have hc : c ∈ chunk_string (String.join (separate_tokens input)) 3 := by
        show c ∈ queryTokens input
        rw [hq]
        exact List.mem_cons_self c cs
      have := (chunk_string_spec (String.join (separate_tokens input)) 3
        (by decide)).1 c hc
      simpa [startWord, hq] using this.2
  · cases hq : queryTokens input with
    | nil =>
      refine ⟨String.join (separate_tokens input), ?_⟩
      have : String.join (queryTokens input)
          = String.join (separate_tokens input) :=
        join_chunk_string (String.join (separate_tokens input)) 3
      simp [startWord, hq]
    | cons c cs =>
      refine ⟨String.join cs, ?_⟩
      have h1 : String.join (queryTokens input)
          = String.join (separate_tokens input) :=
        join_chunk_string (String.join (separate_tokens input)) 3
      rw [hq, string_join_cons] at h1
      simp [startWord, hq, ← h1]

theorem chunkAux_ne_nil (n : Nat) (cs acc : List Char) (k : Nat)
    (hacc : acc ≠ []) : ∀ ch ∈ chunkAux n cs acc k, ch ≠ [] := by
  induction cs generalizing acc k with
  | nil =>
    intro ch hch
    simp only [chunkAux, List.mem_singleton] at hch
    subst hch
    simpa using hacc
  | cons c cs ih =>
    intro ch hch
    cases k with
    | zero =>
      simp only [chunkAux, List.mem_cons] at hch
      rcases hch with rfl | hch
      · simpa using hacc
      · exact ih [c] (n - 1) (by simp) ch hch
    | succ k =>
      simp only [chunkAux] at hch
      exact ih (c :: acc) k (by simp) ch hch

theorem chunk_string_ne_empty (s : String) (n : Nat) :
    ∀ c ∈ chunk_string s n, c ≠ "" := by
  intro c hc
  simp only [chunk_string, List.mem_map] at hc
  obtain ⟨ch, hch, rfl⟩ := hc
  cases s with
  | mk data =>
    cases data with
    | nil => simp [chunkList] at hch
    | cons a as =>
      have := chunkAux_ne_nil n as [a] (n - 1) (by simp) ch hch
      intro hcon
      exact this (by simpa [String.ext_iff] using hcon)

theorem tokenizeTraining_ne_empty (text : String) :
    ∀ t ∈ tokenizeTraining text, t ≠ "" := by
  intro t ht
  simp only [tokenizeTraining, List.mem_flatten, List.mem_map] at ht
  obtain ⟨l, ⟨w, hw, rfl⟩, htl⟩ := ht
  exact chunk_string_ne_empty w 5 t htl

theorem learn_find?_empty_string (text : String) :
    Table.find? (MarkovChain.learn [] text) "" = none := by
  unfold MarkovChain.learn
  have h := find?_learnTokens (tokenizeTraining text) [] ""
  simp only [Table.find?] at h
  rw [h]
  have : "" ∉ tokenizeTraining text := fun hc =>
    tokenizeTraining_ne_empty text "" hc rfl
  simp [this]

theorem runsGo_excluded (l : List Char)
    (h : ∀ c ∈ l, charClass c = none) : runsGo l none = [] := by
  induction l with
  | nil => rfl
  | cons c cs ih =>
    have hc := h c (List.mem_cons_self c cs)
    simp only [runsGo, hc]
    exact ih fun d hd => h d (List.mem_cons_of_mem c hd)

/-- C8: tokenizing the empty string — or any input made only of excluded
characters — yields no tokens; the seed then defaults to the empty string,
which is never a key of a learned table (every learned token is a nonempty
chunk), so `generate` takes its dead-end restart branch for it. -/
theorem empty_input_dead_end :
    separate_tokens "" = [] ∧
    queryTokens "" = [] ∧
    startWord "" = "" ∧
    (∀ s : String, (∀ c ∈ s.data, charClass c = none) →
      separate_tokens s = []) ∧
    (∀ text : String, Table.find? (MarkovChain.learn [] text) "" = none) ∧
    (∀ text : String, deadEnd (MarkovChain.learn [] text) "" = true) := by
  refine ⟨rfl, rfl, rfl, fun s hs => runsGo_excluded s.data hs,
    learn_find?_empty_string, fun text => ?_⟩
  unfold deadEnd
  rw [learn_find?_empty_string text]

/-- Witness for C8 at the excluded-only input "?? !" and the training text
"a b". -/
theorem empty_input_dead_end_witness :
    separate_tokens "?? !" = [] ∧
    deadEnd (MarkovChain.learn [] "a b") "" = true :=
  ⟨empty_input_dead_end.2.2.2.1 "?? !" (by decide),
   empty_input_dead_end.2.2.2.2.2 "a b"⟩

theorem weightedPick_lt (ws : List Nat) (r : Nat) (h : r < ws.sum) :
    weightedPick ws r < ws.length := by
  induction ws generalizing r with
  | nil => simp at h
  | cons w rest ih =>
    simp only [weightedPick]
    by_cases hr : r < w
    · simp [hr]
    · have : r - w < rest.sum := by
        simp only [List.sum_cons] at h
        omega
      simp only [hr, if_false, List.length_cons]
      have := ih (r - w) this
      omega

theorem weightsOf_pos (ts : List String) :
    ∀ w ∈ weightsOf ts, 1 ≤ w := by
  intro w hw
  simp only [weightsOf, List.mem_map] at hw
  obtain ⟨x, hx, rfl⟩ := hw
  exact List.count_pos_iff.mpr hx

theorem weightsOf_sum_pos (ts : List String) (h : ts ≠ []) :
    0 < (weightsOf ts).sum := by
  cases ts with
  | nil => exact absurd rfl h
  | cons t ts' =>
    have h1 : 1 ≤ (t :: ts').count t :=
      List.count_pos_iff.mpr (List.mem_cons_self t ts')
    simp only [weightsOf, List.map_cons, List.sum_cons]
    omega

/-- C6: whenever the successor list is nonempty (the only case in which
`generate` builds the sampler, guarded by the check on line 78), the weight
vector is nonempty and every entry is a positive integer (each weight counts
at least the occurrence itself), so `WeightedIndex::new` succeeds — the
`unwrap` on line 87 cannot panic — and the sampled index is always a valid
index into the successor list. -/
theorem sampler_safety (ts : List String) (h : ts ≠ []) :
    weightsOf ts ≠ [] ∧
    (∀ w ∈ weightsOf ts, 1 ≤ w) ∧
    weightedIndexNew (weightsOf ts) = some (weightsOf ts) ∧
    (∀ r : Nat, weightedPick (weightsOf ts) (r % (weightsOf ts).sum)
      < ts.length) := by
  have hsum := weightsOf_sum_pos ts h
  refine ⟨?_, weightsOf_pos ts, ?_, fun r => ?_⟩
  · simp [weightsOf, h]
  · unfold weightedIndexNew
    have h1 : (weightsOf ts).isEmpty = false := by
      simp [weightsOf, h]
    have h2 : ¬ (weightsOf ts).sum = 0 := by omega
    simp [h1, h2]
  · have hr : r % (weightsOf ts).sum < (weightsOf ts).sum :=
      Nat.mod_lt r hsum
    have := weightedPick_lt (weightsOf ts) _ hr
    simpa [weightsOf] using this

/-- Witness for C6 at the one-element successor list ["b"] and draw 0. -/
theorem sampler_safety_witness :
    weightedIndexNew (weightsOf ["b"]) = some (weightsOf ["b"]) ∧
    weightedPick (weightsOf ["b"]) (0 % (weightsOf ["b"]).sum)
      < (["b"] : List String).length :=
  ⟨(sampler_safety ["b"] (by decide)).2.2.1,
   (sampler_safety ["b"] (by decide)).2.2.2 0⟩

/-- C1 counterexample: after learning ["a","b","a","b","a","c"] the record
of "a" has successor list ["b","b","c"]; the sampler then selects "b" for 4
of the 5 possible draws and "c" for 1 — four times the probability, not
twice, because each of the two "b" occurrences carries weight 2. -/
theorem weighted_sampling_counterexample :
    Table.find? (learnTokens [] ["a", "b", "a", "b", "a", "c"]) "a"
      = some ⟨"a", ["b", "b", "c"]⟩ ∧
    selectionCount ["b", "b", "c"] "b" = 4 ∧
    selectionCount ["b", "b", "c"] "c" = 1 ∧
    ¬ selectionCount ["b", "b", "c"] "b"
        = 2 * selectionCount ["b", "b", "c"] "c" := by
  refine ⟨by decide, by decide, by decide, by decide⟩

theorem pick_count (ws : List Nat) (ts : List String) (v : String)
    (h : ws.length = ts.length) :
    ((List.range ws.sum).filter
      (fun r => ts.getD (weightedPick ws r) "" = v)).length
    = (((ts.zip ws).filter (fun p => p.1 = v)).map Prod.snd).sum := by
  induction ws generalizing ts with
  | nil =>
    cases ts with
    | nil => simp
    | cons t ts' => simp at h
  | cons w ws' ih =>
    cases ts with
    | nil => simp at h
    | cons t ts' =>
      have hlen : ws'.length = ts'.length := by simpa using h
      rw [List.sum_cons, List.range_add, List.filter_append,
        List.length_append]
      have h1 : (List.range w).filter
          (fun r => (t :: ts').getD (weightedPick (w :: ws') r) "" = v)
          = (List.range w).filter (fun _ => decide (t = v)) := by
        apply List.filter_congr
        intro r hr
        have hrw : r < w := List.mem_range.mp hr
        simp [weightedPick, hrw]
      have h2 : ((List.range w).filter (fun _ => decide (t = v))).length
          = if t = v then w else 0 := by
        by_cases ht : t = v <;> simp [ht]
      have h3 : (((List.range ws'.sum).map (w + ·)).filter
          (fun r => (t :: ts').getD (weightedPick (w :: ws') r) "" = v)).length
          = ((List.range ws'.sum).filter
              (fun r => ts'.getD (weightedPick ws' r) "" = v)).length := by
        rw [← List.countP_eq_length_filter, ← List.countP_eq_length_filter,
          List.countP_map]
        apply List.countP_congr
        intro r hr
        have hw : ¬ (w + r < w) := by omega
        simp [Function.comp, weightedPick, hw, Nat.add_sub_cancel_left,
          Nat.one_add]
      rw [h1, h2, h3, ih ts' hlen]
      by_cases ht : t = v <;> simp [ht]

theorem zip_count_sum (l : List String) (g : String → Nat) (v : String) :
    (((l.zip (l.map g)).filter (fun p => p.1 = v)).map Prod.snd).sum
      = l.count v * g v := by
  induction l with
  | nil => simp
  | cons t l ih =>
    by_cases ht : t = v
    · subst ht
      simp [List.count_cons, ih, Nat.succ_mul]
      omega
    · simp [List.count_cons, ht, ih]

/-- C1 (amended): the weight assigned by `generate` to **each occurrence**
in the successor list equals the number of occurrences of its value, so a
distinct successor is selected with probability proportional to the
**square** of its occurrence count (selection weight count², not count);
in the example corpus, "b" is selected with four times the probability of
"c", not twice. -/
theorem weighting_squares_frequency :
    (∀ ts : List String, weightsOf ts = ts.map fun w => ts.count w) ∧
    (∀ (ts : List String) (v : String),
      selectionCount ts v = ts.count v * ts.count v) := by
  refine ⟨fun ts => rfl, fun ts v => ?_⟩
  unfold selectionCount
  rw [pick_count (weightsOf ts) ts v (by simp [weightsOf])]
  exact zip_count_sum ts (fun w => ts.count w) v

theorem takeWhile_append_space (p : Char → Bool) (hp : p ' ' = false)
    (l m : List Char) :
    (l ++ ' ' :: m).takeWhile p = l.takeWhile p := by
  induction l with
  | nil => simp [List.takeWhile, hp]
  | cons c l ih =>
    simp only [List.cons_append, List.takeWhile_cons]
    cases hc : p c with
    | false => rfl
    | true => simp [ih]

theorem firstToken_append_sep (s t : String) :
    firstToken (s ++ " " ++ t) = firstToken s := by
  unfold firstToken
  have hdata : (s ++ " " ++ t).data = s.data ++ ' ' :: t.data := by
    simp [String.data_append]
  rw [hdata, takeWhile_append_space _ (by decide)]

theorem firstToken_head (out : String) (h : firstToken out = "。") :
    out.data.head? = some '。' := by
  have hdata : out.data.takeWhile (fun c => !(c = ' ' : Bool)) = "。".data :=
    congrArg String.data h
  cases hd : out.data with
  | nil =>
    rw [hd] at hdata
    simp at hdata
  | cons c cs =>
    rw [hd] at hdata
    rw [List.takeWhile_cons] at hdata
    by_cases hc : c = ' '
    · simp [hc] at hdata
    · have h09 : "。".data = ['。'] := rfl
      rw [h09] at hdata
      simp [hc] at hdata
      simp [hdata.1]

theorem generateAux_firstToken (tbl : Table) :
    ∀ (fuel : Nat) (rng : List Nat) (result current : String) (n : Nat)
      (out : String × List Nat),
      generateAux tbl fuel rng result current n = some out →
      firstToken out.1 = firstToken result ∨ firstToken out.1 = "。" := by
  intro fuel
  induction fuel with
  | zero =>
    intro rng result current n out h
    simp [generateAux] at h
  | succ fuel ih =>
    intro rng result current n out h
    cases n with
    | zero =>
      simp only [generateAux] at h
      obtain rfl : (result, rng) = out := Option.some.inj h
      exact Or.inl rfl
    | succ m =>
      simp only [generateAux] at h
      cases hfind : Table.find? tbl current with
      | none =>
        simp only [hfind] at h
        cases hin : generateAux tbl fuel rng "。" "。" 20 with
        | none =>
          simp only [hin] at h
          exact absurd h (by simp)
        | some pr =>
          obtain ⟨r, rng'⟩ := pr
          simp only [hin] at h
          have h3 := ih rng "。" "。" 20 (r, rng') hin
          have hr : firstToken r = "。" := by
            rcases h3 with h3 | h3 <;> simpa using h3
          rcases ih rng' r current m out h with h2 | h2
          · exact Or.inr (h2.trans hr)
          · exact Or.inr h2
      | some word =>
        simp only [hfind] at h
        cases htr : word.transitions with
        | nil =>
          simp only [htr] at h
          cases hin : generateAux tbl fuel rng "。" "。" 20 with
          | none =>
            simp only [hin] at h
            exact absurd h (by simp)
          | some pr =>
            obtain ⟨r, rng'⟩ := pr
            simp only [hin] at h
            have h3 := ih rng "。" "。" 20 (r, rng') hin
            have hr : firstToken r = "。" := by
              rcases h3 with h3 | h3 <;> simpa using h3
            rcases ih rng' r current m out h with h2 | h2
            · exact Or.inr (h2.trans hr)
            · exact Or.inr h2
        | cons a as =>
          simp only [htr] at h
          rcases ih _ _ _ _ _ h with h2 | h2
          · rw [firstToken_append_sep] at h2
            exact Or.inl h2
          · exact Or.inr h2

theorem deadEnd_cases (tbl : Table) (w : String) (h : deadEnd tbl w = true) :
    Table.find? tbl w = none ∨
    ∃ wd, Table.find? tbl w = some wd ∧ wd.transitions = [] := by
  unfold deadEnd at h
  cases hf : Table.find? tbl w with
  | none => exact Or.inl rfl
  | some wd =>
    simp only [hf] at h
    exact Or.inr ⟨wd, rfl, List.isEmpty_iff.mp h⟩

theorem generateAux_deadEnd (tbl : Table) :
    ∀ (fuel : Nat) (rng : List Nat) (result current : String) (n : Nat)
      (out : String × List Nat), deadEnd tbl current = true →
      generateAux tbl fuel rng result current (n + 1) = some out →
      firstToken out.1 = "。" := by
  intro fuel
  induction fuel with
  | zero =>
    intro rng result current n out hdead h
    simp [generateAux] at h
  | succ fuel ih =>
    intro rng result current n out hdead h
    simp only [generateAux] at h
    have hred : (match generateAux tbl fuel rng "。" "。" 20 with
        | none => none
        | some (r, rng') => generateAux tbl fuel rng' r current n)
        = some out := by
      rcases deadEnd_cases tbl current hdead with hfind | ⟨word, hfind, htr⟩
      · simpa only [hfind] using h
      · simpa only [hfind, htr] using h
    cases hin : generateAux tbl fuel rng "。" "。" 20 with
    | none =>
      simp only [hin] at hred
      exact absurd hred (by simp)
    | some pr =>
      obtain ⟨r, rng'⟩ := pr
      simp only [hin] at hred
      have hr : firstToken r = "。" := by
        rcases generateAux_firstToken tbl fuel rng "。" "。" 20 (r, rng') hin
          with h3 | h3 <;> simpa using h3
      cases n with
      | zero =>
        cases fuel with
        | zero => simp [generateAux] at hred
        | succ f =>
          simp only [generateAux] at hred
          obtain rfl : (r, rng') = out := Option.some.inj hred
          exact hr
      | succ m => exact ih rng' r current m out hdead hred

theorem runsGo_chars : ∀ (l : List Char) (st : Option (Fin 4 × List Char)),
    (∀ k acc, st = some (k, acc) → ∀ c ∈ acc, (charClass c).isSome) →
    ∀ t ∈ runsGo l st, ∀ c ∈ t.data, (charClass c).isSome := by
  intro l
  induction l with
  | nil =>
    intro st hst t ht c hc
    cases st with
    | none => simp [runsGo] at ht
    | some pr =>
      obtain ⟨k, acc⟩ := pr
      simp only [runsGo, List.mem_singleton] at ht
      subst ht
      have hmem : c ∈ acc := by simpa using hc
      exact hst k acc rfl c hmem
  | cons d ds ih =>
    intro st hst t ht c hc
    cases st with
    | none =>
      simp only [runsGo] at ht
      cases hcl : charClass d with
      | none =>
        simp only [hcl] at ht
        exact ih none (by simp) t ht c hc
      | some k =>
        simp only [hcl] at ht
        refine ih (some (k, [d])) ?_ t ht c hc
        intro k' acc' he c' hc'
        obtain ⟨hk, ha⟩ := Prod.mk.injEq .. ▸ Option.some.inj he
        subst ha
        have : c' = d := by simpa using hc'
        subst this
        simp [hcl]
    | some pr =>
      obtain ⟨k, acc⟩ := pr
      simp only [runsGo] at ht
      cases hcl : charClass d with
      | none =>
        simp only [hcl, List.mem_cons] at ht
        rcases ht with rfl | ht
        · have hmem : c ∈ acc := by simpa using hc
          exact hst k acc rfl c hmem
        · exact ih none (by simp) t ht c hc
      | some k' =>
        simp only [hcl] at ht
        by_cases hkk : k' = k
        · simp only [hkk, if_pos rfl] at ht
          refine ih (some (k, d :: acc)) ?_ t ht c hc
          intro k'' acc'' he c' hc'
          obtain ⟨hk2, ha2⟩ := Prod.mk.injEq .. ▸ Option.some.inj he
          subst ha2
          rcases List.mem_cons.mp hc' with rfl | hc''
          · simp [hcl]
          · exact hst k acc rfl c' hc''
        · simp only [hkk, if_false, List.mem_cons] at ht
          rcases ht with rfl | ht
          · have hmem : c ∈ acc := by simpa using hc
            exact hst k acc rfl c hmem
          · refine ih (some (k', [d])) ?_ t ht c hc
            intro k'' acc'' he c' hc'
            obtain ⟨hk2, ha2⟩ := Prod.mk.injEq .. ▸ Option.some.inj he
            subst ha2
            have : c' = d := by simpa using hc'
            subst this
            simp [hcl]

theorem chunk_string_chars (s : String) (n : Nat) :
    ∀ t ∈ chunk_string s n, ∀ c ∈ t.data, c ∈ s.data := by
  intro t ht c hc
  simp only [chunk_string, List.mem_map] at ht
  obtain ⟨ch, hch, rfl⟩ := ht
  have hj : c ∈ (chunkList n s.data).flatten :=
    List.mem_flatten.mpr ⟨ch, hch, hc⟩
  rwa [chunkList_join] at hj

theorem tokenizeTraining_chars (text : String) :
    ∀ t ∈ tokenizeTraining text, ∀ c ∈ t.data, (charClass c).isSome := by
  intro t ht c hc
  simp only [tokenizeTraining, List.mem_flatten, List.mem_map] at ht
  obtain ⟨l, ⟨w, hw, rfl⟩, htl⟩ := ht
  have hcw : c ∈ w.data := chunk_string_chars w 5 t htl c hc
  obtain ⟨l', ⟨word, hword, rfl⟩, hwl⟩ := hw
  exact runsGo_chars word.data none (by simp) w hwl c hcw

theorem learn_unknown_token_dead (text : String) :
    deadEnd (MarkovChain.learn [] text) "unknown_token" = true := by
  have hmem : "unknown_token" ∉ tokenizeTraining text := by
    intro hc
    have hcl := tokenizeTraining_chars text _ hc '_' (by decide)
    exact absurd hcl (by decide)
  have h := find?_learnTokens (tokenizeTraining text) [] "unknown_token"
  simp only [Table.find?] at h
  unfold deadEnd MarkovChain.learn
  rw [h, if_neg hmem]

/-- C2: for every table, seed and length ≥ 1, an iteration whose current
token is unknown or has no successors replaces the whole accumulated
result by a fresh recursive `generate("。", 20)` call (fixed fallback seed
and length, prior output discarded); consequently any finished run whose
seed is such a dead end — "unknown_token" is one for every learned table,
since `'_'` belongs to no tokenizer class — returns a string whose first
token is the fallback seed "。", hence one that does not begin with
"unknown_token". -/
theorem generate_dead_end_restart :
    (∀ (tbl : Table) (fuel : Nat) (rng : List Nat) (result current : String)
        (n : Nat), deadEnd tbl current = true →
      generateAux tbl (fuel + 1) rng result current (n + 1)
        = match generateAux tbl fuel rng "。" "。" 20 with
          | none => none
          | some (r, rng') => generateAux tbl fuel rng' r current n) ∧
    (∀ (tbl : Table) (fuel : Nat) (rng : List Nat) (seed : String)
        (length : Nat) (out : String), deadEnd tbl seed = true →
      1 ≤ length → generate tbl fuel rng seed length = some out →
      firstToken out = "。") ∧
    (∀ text : String,
      deadEnd (MarkovChain.learn [] text) "unknown_token" = true) ∧
    (∀ out rest : String, firstToken out = "。" →
      out ≠ "unknown_token" ++ rest) := by
  refine ⟨?_, ?_, learn_unknown_token_dead, ?_⟩
  · intro tbl fuel rng result current n hdead
    simp only [generateAux]
    rcases deadEnd_cases tbl current hdead with hfind | ⟨word, hfind, htr⟩
    · simp only [hfind]
    · simp only [hfind, htr]
  · intro tbl fuel rng seed length out hdead hlen h
    unfold generate at h
    cases haux : generateAux tbl fuel rng seed seed length with
    | none => rw [haux] at h; exact absurd h (by simp)
    | some pr =>
      rw [haux] at h
      obtain rfl : pr.1 = out := Option.some.inj h
      cases length with
      | zero => omega
      | succ m => exact generateAux_deadEnd tbl fuel rng seed seed m pr hdead haux
  · intro out rest h hc
    have hhead := firstToken_head out h
    rw [hc] at hhead
    have h2 : ("unknown_token" ++ rest).data.head? = some 'u' := by
      rw [String.data_append]
      rfl
    rw [h2] at hhead
    exact absurd (Option.some.inj hhead) (by decide)

/-- Witness for C2: a concrete table in which "qq" is unknown; the finished
run of `generate` from the dead seed "qq" starts with the fallback seed. -/
theorem generate_dead_end_restart_witness :
    firstToken ((generate (learnTokens [] ["。", "。"]) 25 [] "qq" 1).getD "")
      = "。" :=
  generate_dead_end_restart.2.1 (learnTokens [] ["。", "。"]) 25 [] "qq" 1
    ((generate (learnTokens [] ["。", "。"]) 25 [] "qq" 1).getD "")
    (by decide) (by decide) (by decide)

theorem generateAux_deadEnd_step (tbl : Table) (fuel : Nat) (rng : List Nat)
    (result current : String) (n : Nat) (hdead : deadEnd tbl current = true) :
    generateAux tbl (fuel + 1) rng result current (n + 1)
      = match generateAux tbl fuel rng "。" "。" 20 with
        | none => none
        | some (r, rng') => generateAux tbl fuel rng' r current n := by
  simp only [generateAux]
  rcases deadEnd_cases tbl current hdead with hfind | ⟨word, hfind, htr⟩
  · simp only [hfind]
  · simp only [hfind, htr]

/-- C10: once an iteration of the generation loop hits a dead end, the
current token is never updated again, so (i) the accumulated result is
irrelevant — the run's outcome is the same for any accumulated output — and
(ii) a finished run returns exactly the value (output and remaining oracle)
of the last fresh recursive `generate("。", 20)` call, every earlier
fallback result and all pre-dead-end output being discarded. -/
theorem restart_discards_and_returns_last :
    (∀ (tbl : Table) (fuel : Nat) (rng : List Nat)
        (result result' current : String) (n : Nat),
      deadEnd tbl current = true →
      generateAux tbl fuel rng result current (n + 1)
        = generateAux tbl fuel rng result' current (n + 1)) ∧
    (∀ (tbl : Table) (fuel : Nat) (rng : List Nat) (result current : String)
        (n : Nat) (out : String × List Nat),
      deadEnd tbl current = true →
      generateAux tbl (fuel + 1) rng result current (n + 1) = some out →
      ∃ (f : Nat) (rng₀ : List Nat), f ≤ fuel ∧
        generateAux tbl f rng₀ "。" "。" 20 = some out) := by
  constructor
  · intro tbl fuel rng result result' current n hdead
    cases fuel with
    | zero => rfl
    | succ fuel =>
      simp only [generateAux]
      rcases deadEnd_cases tbl current hdead with hfind | ⟨word, hfind, htr⟩
      · simp only [hfind]
      · simp only [hfind, htr]
  · intro tbl fuel
    induction fuel with
    | zero =>
      intro rng result current n out hdead h
      simp only [generateAux] at h
      rcases deadEnd_cases tbl current hdead with hfind | ⟨word, hfind, htr⟩
      · simp [hfind, generateAux] at h
      · simp [hfind, htr, generateAux] at h
    | succ fuel ih =>
      intro rng result current n out hdead h
      rw [generateAux_deadEnd_step tbl (fuel + 1) rng result current n hdead]
        at h
      have hred := h
      cases hin : generateAux tbl (fuel + 1) rng "。" "。" 20 with
      | none =>
        simp only [hin] at hred
        exact absurd hred (by simp)
      | some pr =>
        obtain ⟨r, rng'⟩ := pr
        simp only [hin] at hred
        cases n with
        | zero =>
          simp only [generateAux] at hred
          obtain rfl : (r, rng') = out := Option.some.inj hred
          exact ⟨fuel + 1, rng, Nat.le_refl _, hin⟩
        | succ m =>
          obtain ⟨f, rng₀, hf, heq⟩ := ih rng' r current m out hdead hred
          exact ⟨f, rng₀, Nat.le_succ_of_le hf, heq⟩

/-- Witness for C10: with "zz" unknown to a concrete table, the run's value
is independent of the accumulated result, and the finished value is that of
a single fresh fallback call. -/
theorem restart_discards_witness :
    generateAux (learnTokens [] ["。", "。"]) 30 [] "abc" "zz" 2
      = generateAux (learnTokens [] ["。", "。"]) 30 [] "xyz" "zz" 2 ∧
    ∃ (f : Nat) (rng₀ : List Nat), f ≤ 29 ∧
      generateAux (learnTokens [] ["。", "。"]) f rng₀ "。" "。" 20
        = some ((generateAux (learnTokens [] ["。", "。"]) 30 [] "abc" "zz" 2).getD
            ("", [])) :=
  ⟨restart_discards_and_returns_last.1 (learnTokens [] ["。", "。"]) 30 []
      "abc" "xyz" "zz" 1 (by decide),
   restart_discards_and_returns_last.2 (learnTokens [] ["。", "。"]) 29 []
      "abc" "zz" 1
      ((generateAux (learnTokens [] ["。", "。"]) 30 [] "abc" "zz" 2).getD
        ("", []))
      (by decide) (by decide)⟩
